import Mathlib

/-!
Shallow embedding of the RAG pipeline of `lib/rag.ts` (chunking, embedding
fan-out, per-session vector store, cosine-similarity retrieval), together
with proofs settling the frozen claims about it.

Modelling conventions:
* A JavaScript string is modelled as its character sequence `List Char`
  (`JStr`); the string operations the source uses (`split(/\s+/)`,
  `filter(Boolean)`, `join(" ")`, `trim()`, `slice`) are defined below on
  that representation.
* JavaScript numbers are modelled as `ℚ`; `Math.sqrt` is an abstract
  parameter of the similarity function (see `cosineSimilarity`).
* The `for` loop of `chunkText` is not structurally terminating: when
  `overlap >= chunkSize` its stride is not positive and the source loops
  forever.  It is therefore embedded with explicit fuel; `none` models
  divergence.  Fuel `words.length + 1` is provably sufficient whenever
  `overlap < chunkSize`.
* `async` functions returning promises are embedded as functions returning
  `Except`; the embedding client is an oracle `JStr → Except ε (List ℚ)`.
-/

namespace Rag

/-- A JavaScript string, modelled as its character sequence. -/
abbrev JStr := List Char

/-- The JavaScript whitespace class used by the regex in
`text.split(/\s+/)`. -/
def isWS (c : Char) : Bool := c.isWhitespace

/-- Accumulator recursion implementing `text.split(/\s+/).filter(Boolean)`:
maximal runs of non-whitespace characters, in order, empty pieces dropped.
`cur` holds the characters of the current word in reverse. -/
def splitWordsAux : List Char → List Char → List JStr
  | [], cur => if cur = [] then [] else [cur.reverse]
  | c :: rest, cur =>
    if isWS c then
      if cur = [] then splitWordsAux rest []
      else cur.reverse :: splitWordsAux rest []
    else splitWordsAux rest (c :: cur)

/-- The tokenization `text.split(/\s+/).filter(Boolean)` from line 39 of
the source. -/
def splitWords (text : JStr) : List JStr := splitWordsAux text []

/-- The join `words.join(" ")`: intercalate a single space. -/
def joinSpace : List JStr → JStr
  | [] => []
  | [w] => w
  | w :: ws => w ++ ' ' :: joinSpace ws

/-- Model of `s.trim()`: drop whitespace from both ends. -/
def trimJS (s : JStr) : JStr := ((s.dropWhile isWS).reverse.dropWhile isWS).reverse

/-- The loop of `chunkText` (source lines 46-52), with explicit fuel.
State: `i` is the window start, `chunks` the accumulator.  Each iteration
with `i < words.length` joins the window `words.slice(i, i + chunkSize)`,
pushes it when its trimmed length is positive, stops when the window
reaches the end of `words`, and otherwise advances `i` by the stride
`chunkSize - overlap`.  `none` models a run that exhausts the fuel, which
(for natural-number stride, exact at `overlap = chunkSize`) is exactly the
divergence of the unguarded source loop. -/
def chunkTextLoop (words : List JStr) (chunkSize overlap : Nat) :
    Nat → Nat → List JStr → Option (List JStr)
  | 0, _, _ => none
  | fuel + 1, i, chunks =>
    if i < words.length then
      let chunk := joinSpace ((words.drop i).take chunkSize)
      let chunks2 := if 0 < (trimJS chunk).length then chunks ++ [chunk] else chunks
      if words.length ≤ i + chunkSize then some chunks2
      else chunkTextLoop words chunkSize overlap fuel (i + (chunkSize - overlap)) chunks2
    else some chunks

/-- The splitter `chunkText(text, chunkSize, overlap)` (source lines
34-55).  The source
defaults are `chunkSize = 500`, `overlap = 100`.  If the input has at most
`chunkSize` words the single joined chunk is returned; otherwise the
sliding-window loop runs with fuel `words.length + 1`, which suffices
whenever `overlap < chunkSize`. -/
def chunkText (text : JStr) (chunkSize overlap : Nat) : Option (List JStr) :=
  let words := splitWords text
  if words.length ≤ chunkSize then some [joinSpace words]
  else chunkTextLoop words chunkSize overlap (words.length + 1) 0 []

/-- Total wrapper for `chunkText` used by `indexDocument` (which calls it
with the defaults `500`/`100`, a stride of `400`, where termination is
proved below: `chunkText_eq_some_chunkTextD`). -/
def chunkTextD (text : JStr) (chunkSize overlap : Nat) : List JStr :=
  (chunkText text chunkSize overlap).getD []

/-- The window start indices produced by the `chunkText` loop, with the
same fuel discipline as `chunkTextLoop`. -/
def windowStarts (len chunkSize stride : Nat) : Nat → Nat → List Nat
  | 0, _ => []
  | fuel + 1, i =>
    if i < len then
      if len ≤ i + chunkSize then [i]
      else i :: windowStarts len chunkSize stride fuel (i + stride)
    else []

/-- A stored chunk (`DocumentChunk` of the source): id, text, embedding.
Embedding components are JavaScript numbers, modelled as `ℚ`. -/
structure DocumentChunk where
  id : String
  text : JStr
  embedding : List ℚ
deriving DecidableEq

/-- The per-session entry (`VectorStore` of the source). -/
structure VectorStore where
  chunks : List DocumentChunk
deriving DecidableEq

/-- The module-level `Map<string, VectorStore>`, modelled as a function
from session id to optional entry. -/
abbrev Stores := String → Option VectorStore

/-- The empty map (initial state of the module). -/
def emptyStores : Stores := fun _ => none

/-- Model of `vectorStores.set(k, v)`. -/
def storesSet (σ : Stores) (k : String) (v : VectorStore) : Stores :=
  fun q => if q = k then some v else σ q

/-- Model of `clearSession(sessionId)`, i.e.
`vectorStores.delete(sessionId)`. -/
def clearSession (sid : String) (σ : Stores) : Stores :=
  fun q => if q = sid then none else σ q

/-- Model of `hasDocuments(sessionId)`: an entry exists and holds a
chunk. -/
def hasDocuments (sid : String) (σ : Stores) : Bool :=
  match σ sid with
  | some st => 0 < st.chunks.length
  | none => false

/-- The embedding client (`generateEmbedding`), an external oracle: the
sole failure source of the pipeline.  The error type is abstract; the
pipeline propagates errors unchanged. -/
abbrev EmbedFn (ε : Type) := JStr → Except ε (List ℚ)

/-- The chunk id of the source, line 103: the interpolation
`sessionId ++ "-" ++ toString index`. -/
def mkChunkId (sid : String) (i : Nat) : String := sid ++ "-" ++ Nat.repr i

/-- The embedding fan-out of `indexDocument` (source lines 99-108):
`Promise.all(chunks.map(async (chunkText, index) => ...))`.  Results keep
index order; a rejection of any per-chunk call rejects the whole batch
(modelled as the error of the first failing chunk in index order) and, in
the source, happens before any store mutation. -/
def mkDocumentChunks {ε : Type} (embed : EmbedFn ε) (sid : String) :
    Nat → List JStr → Except ε (List DocumentChunk)
  | _, [] => Except.ok []
  | i, c :: cs =>
    match embed c with
    | Except.error e => Except.error e
    | Except.ok emb =>
      match mkDocumentChunks embed sid (i + 1) cs with
      | Except.error e => Except.error e
      | Except.ok rest => Except.ok (⟨mkChunkId sid i, c, emb⟩ :: rest)

/-- The commit of `indexDocument` (source lines 110-116): push onto the
existing entry, or create a fresh entry.  In the source this
read-modify-write runs synchronously after the awaited fan-out, with no
suspension point inside, so it executes atomically in the event loop. -/
def commitBatch (σ : Stores) (sid : String) (dcs : List DocumentChunk) : Stores :=
  match σ sid with
  | some existing => storesSet σ sid ⟨existing.chunks ++ dcs⟩
  | none => storesSet σ sid ⟨dcs⟩

/-- The ingest `indexDocument(sessionId, text)` (source lines 92-119):
chunk with the
defaults, embed every chunk, and on success commit the whole batch and
report its size.  The returned pair is the post-state of the store and the
settled promise: on a rejected embedding the store is the untouched input
state. -/
def indexDocument {ε : Type} (embed : EmbedFn ε) (sid : String) (text : JStr)
    (σ : Stores) : Stores × Except ε Nat :=
  let chunks := chunkTextD text 500 100
  match mkDocumentChunks embed sid 0 chunks with
  | Except.error e => (σ, Except.error e)
  | Except.ok dcs => (commitBatch σ sid dcs, Except.ok dcs.length)

/-- Sum of squares, the `normA`/`normB` accumulators of
`cosineSimilarity` (source lines 74-82). -/
def sumSquares (v : List ℚ) : ℚ := v.foldl (fun s x => s + x * x) 0

/-- The `dotProduct` accumulator of `cosineSimilarity`. -/
def dotProduct (a b : List ℚ) : ℚ := (a.zip b).foldl (fun s p => s + p.1 * p.2) 0

/-- Model of `cosineSimilarity(a, b)` (source lines 73-86).  `Math.sqrt` is an
abstract parameter (theorems assume of it only what the claims need, e.g.
`sqrt 0 = 0`).  The source loop runs over the indices of `a`; the model is
stated for the equal-length vectors the pipeline and the claims use. -/
def cosineSimilarity (sqrt : ℚ → ℚ) (a b : List ℚ) : ℚ :=
  let denominator := sqrt (sumSquares a) * sqrt (sumSquares b)
  if denominator = 0 then 0 else dotProduct a b / denominator

/-- The comparator of `scored.sort((a, b) => b.score - a.score)`: the
element `x` may precede `y` when the score of `y` does not exceed the
score of `x`.  ECMAScript `Array.prototype.sort` is required to be
stable, so the sort is modelled as a stable merge sort under this
comparator. -/
def scoreLe (x y : JStr × ℚ) : Bool := decide (y.2 ≤ x.2)

/-- The retrieval `retrieveContext(sessionId, query, topK)` (source lines
125-147):
empty result on a missing or empty session (before any embedding call),
otherwise embed the query, score every stored chunk, sort by descending
score, and return the texts of the first `topK`. -/
def retrieveContext {ε : Type} (sqrt : ℚ → ℚ) (embed : EmbedFn ε)
    (sid : String) (query : JStr) (topK : Nat) (σ : Stores) :
    Except ε (List JStr) :=
  match σ sid with
  | none => Except.ok []
  | some store =>
    if store.chunks.length = 0 then Except.ok []
    else
      match embed query with
      | Except.error e => Except.error e
      | Except.ok queryEmbedding =>
        let scored := store.chunks.map fun c =>
          (c.text, cosineSimilarity sqrt queryEmbedding c.embedding)
        let ranked := scored.mergeSort scoreLe
        Except.ok ((ranked.take topK).map Prod.fst)

/-- The chunk sequence currently stored for a session (empty when the
session has no entry). -/
def storedChunks (σ : Stores) (sid : String) : List DocumentChunk :=
  match σ sid with
  | some st => st.chunks
  | none => []

/-- Number of chunks stored for a session. -/
def chunkCount (σ : Stores) (sid : String) : Nat :=
  (storedChunks σ sid).length

/-- Decimal digit characters of a natural number, most significant first:
the closed form of the `Nat.toDigitsCore` recursion that underlies
`Nat.repr`, used to prove ids distinct. -/
def digitsList (n : Nat) : List Char :=
  if n < 10 then [Nat.digitChar n]
  else digitsList (n / 10) ++ [Nat.digitChar (n % 10)]
termination_by n
decreasing_by
  exact Nat.div_lt_self (by omega) (by omega)

/-- Every word produced by the splitter is nonempty and whitespace-free
(provided the accumulator is whitespace-free). -/
theorem splitWordsAux_sound (l : List Char) :
    ∀ cur, (∀ c ∈ cur, isWS c = false) →
      ∀ w ∈ splitWordsAux l cur, w ≠ [] ∧ ∀ c ∈ w, isWS c = false := by
  induction l with
  | nil =>
    intro cur hcur w hw
    by_cases hc : cur = []
    · simp [splitWordsAux, hc] at hw
    · simp only [splitWordsAux, if_neg hc, List.mem_singleton] at hw
      subst hw
      refine ⟨by simpa using hc, ?_⟩
      intro c hcm
      exact hcur c (List.mem_reverse.mp hcm)
  | cons c rest ih =>
    intro cur hcur w hw
    by_cases hws : isWS c
    · by_cases hc : cur = []
      · simp only [splitWordsAux, if_pos hws, if_pos hc] at hw
        exact ih [] (by simp) w hw
      · simp only [splitWordsAux, if_pos hws, if_neg hc, List.mem_cons] at hw
        rcases hw with hw | hw
        · subst hw
          refine ⟨by simpa using hc, ?_⟩
          intro d hdm
          exact hcur d (List.mem_reverse.mp hdm)
        · exact ih [] (by simp) w hw
    · simp only [splitWordsAux, if_neg hws] at hw
      refine ih (c :: cur) ?_ w hw
      intro d hd
      rcases List.mem_cons.mp hd with hd | hd
      · subst hd; simpa using hws
      · exact hcur d hd
/-- Every word of `splitWords text` is nonempty and whitespace-free. -/
theorem splitWords_sound (text : JStr) :
    ∀ w ∈ splitWords text, w ≠ [] ∧ ∀ c ∈ w, isWS c = false :=
  splitWordsAux_sound text [] (by simp)

/-- Characters of the words survive into the joined string. -/
theorem mem_joinSpace {c : Char} : ∀ {ws : List JStr} {w : JStr},
    w ∈ ws → c ∈ w → c ∈ joinSpace ws := by
  intro ws
  induction ws with
  | nil => intro w hw; simp at hw
  | cons w0 tl ih =>
    intro w hw hc
    rcases List.mem_cons.mp hw with hw | hw
    · subst hw
      cases tl with
      | nil => simpa [joinSpace] using hc
      | cons v tl' => simp [joinSpace, List.mem_append, hc]
    · cases tl with
      | nil => simp at hw
      | cons v tl' =>
        have := ih hw hc
        simp [joinSpace, List.mem_append, List.mem_cons]
        tauto

/-- A string containing a non-whitespace character does not trim to the
empty string. -/
theorem trimJS_ne_nil {s : JStr} {c : Char} (hc : c ∈ s) (hws : isWS c = false) :
    trimJS s ≠ [] := by
  intro h
  unfold trimJS at h
  rw [List.reverse_eq_nil_iff, List.dropWhile_eq_nil_iff] at h
  have hmem : c ∈ s.dropWhile isWS := by
    have hsplit := List.takeWhile_append_dropWhile isWS s
    have : c ∈ s.takeWhile isWS ++ s.dropWhile isWS := by rw [hsplit]; exact hc
    rcases List.mem_append.mp this with hm | hm
    · exact absurd (List.mem_takeWhile_imp hm) (by simp [hws])
    · exact hm
  have := h c (List.mem_reverse.mpr hmem)
  simp [hws] at this

/-- A nonempty window of nonempty whitespace-free words joins to a string
whose trimmed length is positive: the push guard of the loop always
succeeds on such windows. -/
theorem trim_joinSpace_pos {window : List JStr}
    (hne : window ≠ [])
    (hw : ∀ w ∈ window, w ≠ [] ∧ ∀ c ∈ w, isWS c = false) :
    0 < (trimJS (joinSpace window)).length := by
  rcases window with _ | ⟨w0, tl⟩
  · exact absurd rfl hne
  rcases hw w0 (by simp) with ⟨hw0ne, hw0ws⟩
  rcases w0 with _ | ⟨c0, w0'⟩
  · exact absurd rfl hw0ne
  have hc0 : c0 ∈ joinSpace (((c0 :: w0') : JStr) :: tl) :=
    @mem_joinSpace c0 ((c0 :: w0') :: tl) (c0 :: w0') (by simp) (by simp)
  have hws0 : isWS c0 = false := hw0ws c0 (by simp)
  have := trimJS_ne_nil hc0 hws0
  exact List.length_pos.mpr this

/-- Every start index emitted by the loop is at least the initial index. -/
theorem windowStarts_ge (len cs stride : Nat) :
    ∀ fuel i, ∀ s ∈ windowStarts len cs stride fuel i, i ≤ s := by
  intro fuel
  induction fuel with
  | zero => intro i s hs; simp [windowStarts] at hs
  | succ fuel ih =>
    intro i s hs
    by_cases hi : i < len
    · by_cases hend : len ≤ i + cs
      · simp [windowStarts, hi, hend] at hs
        omega
      · simp only [windowStarts, if_pos hi, if_neg hend, List.mem_cons] at hs
        rcases hs with hs | hs
        · omega
        · have := ih (i + stride) s hs
          omega
    · simp [windowStarts, hi] at hs

/-- The start indices are strictly increasing (document order). -/
theorem windowStarts_pairwise (len cs stride : Nat) (hstride : 0 < stride) :
    ∀ fuel i, (windowStarts len cs stride fuel i).Pairwise (· < ·) := by
  intro fuel
  induction fuel with
  | zero => intro i; simp [windowStarts]
  | succ fuel ih =>
    intro i
    by_cases hi : i < len
    · by_cases hend : len ≤ i + cs
      · simp [windowStarts, hi, hend]
      · simp only [windowStarts, if_pos hi, if_neg hend]
        refine List.pairwise_cons.mpr ⟨?_, ih (i + stride)⟩
        intro s hs
        have := windowStarts_ge len cs stride fuel (i + stride) s hs
        omega
    · simp [windowStarts, hi]

/-- Coverage: every position from the initial index up to the end of the
word list lies inside the window of some emitted start index. -/
theorem windowStarts_cover (len cs stride : Nat)
    (hstride : 0 < stride) (hsc : stride ≤ cs) :
    ∀ fuel i, len - i < fuel → ∀ j, i ≤ j → j < len →
      ∃ s ∈ windowStarts len cs stride fuel i, s ≤ j ∧ j < s + cs := by
  intro fuel
  induction fuel with
  | zero => intro i hf; omega
  | succ fuel ih =>
    intro i hf j hij hj
    have hi : i < len := by omega
    by_cases hend : len ≤ i + cs
    · refine ⟨i, ?_, hij, by omega⟩
      simp [windowStarts, hi, hend]
    · simp only [windowStarts, if_pos hi, if_neg hend]
      by_cases hjn : j < i + stride
      · exact ⟨i, by simp, hij, by omega⟩
      · have hf2 : len - (i + stride) < fuel := by omega
        rcases ih (i + stride) hf2 j (by omega) hj with ⟨s, hs, h1, h2⟩
        exact ⟨s, by simp [List.mem_cons, hs], h1, h2⟩

/-- With positive fuel and an in-range start, at least one window start is
emitted. -/
theorem windowStarts_ne_nil (len cs stride fuel i : Nat)
    (hfuel : 0 < fuel) (hi : i < len) :
    windowStarts len cs stride fuel i ≠ [] := by
  cases fuel with
  | zero => omega
  | succ fuel =>
    by_cases hend : len ≤ i + cs
    · simp [windowStarts, hi, hend]
    · simp [windowStarts, hi, hend]

/-- The loop of `chunkText` terminates within the given fuel whenever the
stride is positive, and its output is the join of the windows at
`windowStarts` (the push guard always succeeds because words are nonempty
and whitespace-free). -/
theorem chunkTextLoop_eq_windowStarts (words : List JStr) (cs ov : Nat)
    (hov : ov < cs)
    (hwords : ∀ w ∈ words, w ≠ [] ∧ ∀ c ∈ w, isWS c = false) :
    ∀ fuel i chunks, words.length - i < fuel →
      chunkTextLoop words cs ov fuel i chunks =
        some (chunks ++ (windowStarts words.length cs (cs - ov) fuel i).map
          (fun s => joinSpace ((words.drop s).take cs))) := by
  intro fuel
  induction fuel with
  | zero => intro i chunks hf; omega
  | succ fuel ih =>
    intro i chunks hf
    by_cases hi : i < words.length
    · have hwin_ne : (words.drop i).take cs ≠ [] := by
        have hlen : ((words.drop i).take cs).length = min cs (words.length - i) := by
          simp [List.length_take, List.length_drop]
        intro hcontra
        rw [hcontra] at hlen
        simp at hlen
        omega
      have hwin_sound : ∀ w ∈ (words.drop i).take cs, w ≠ [] ∧ ∀ c ∈ w, isWS c = false := by
        intro w hw
        exact hwords w (List.mem_of_mem_drop (List.mem_of_mem_take hw))
      have hpush : 0 < (trimJS (joinSpace ((words.drop i).take cs))).length :=
        trim_joinSpace_pos hwin_ne hwin_sound
      by_cases hend : words.length ≤ i + cs
      · simp [chunkTextLoop, windowStarts, hi, hend, hpush]
      · have hf2 : words.length - (i + (cs - ov)) < fuel := by omega
        simp only [chunkTextLoop, if_pos hi, if_pos hpush, if_neg hend,
          windowStarts, List.map_cons]
        rw [ih (i + (cs - ov)) (chunks ++ [joinSpace ((words.drop i).take cs)]) hf2]
        simp [List.append_assoc]
    · simp [chunkTextLoop, windowStarts, hi]

/-- Full characterization of `chunkText` on the guarded domain
`overlap < chunkSize`: it terminates and returns the joined windows at a
strictly increasing list of start indices that covers every word
position. -/
theorem chunkText_spec (text : JStr) (cs ov : Nat) (hov : ov < cs) :
    ∃ starts : List Nat,
      chunkText text cs ov =
        some (starts.map (fun s => joinSpace (((splitWords text).drop s).take cs))) ∧
      starts.Pairwise (· < ·) ∧
      (∀ j, j < (splitWords text).length → ∃ s ∈ starts, s ≤ j ∧ j < s + cs) ∧
      starts ≠ [] := by
  by_cases hsmall : (splitWords text).length ≤ cs
  · refine ⟨[0], ?_, by simp, ?_, by simp⟩
    · simp only [chunkText, if_pos hsmall, List.map_cons, List.map_nil,
        List.drop_zero, List.take_of_length_le hsmall]
    · intro j hj
      exact ⟨0, by simp, by omega, by omega⟩
  · have hlen : cs < (splitWords text).length := by omega
    refine ⟨windowStarts (splitWords text).length cs (cs - ov)
      ((splitWords text).length + 1) 0, ?_, ?_, ?_, ?_⟩
    · simp only [chunkText, if_neg hsmall]
      rw [chunkTextLoop_eq_windowStarts (splitWords text) cs ov hov
        (splitWords_sound text) ((splitWords text).length + 1) 0 [] (by omega)]
      simp
    · exact windowStarts_pairwise _ _ _ (by omega) _ _
    · intro j hj
      exact windowStarts_cover _ _ _ (by omega) (by omega) _ 0 (by omega) j (by omega) hj
    · exact windowStarts_ne_nil _ _ _ _ _ (by omega) (by omega)

/-- On the guarded domain, `chunkText` terminates; `chunkTextD` is its
value. -/
theorem chunkText_eq_some_chunkTextD (text : JStr) (cs ov : Nat) (hov : ov < cs) :
    chunkText text cs ov = some (chunkTextD text cs ov) := by
  rcases chunkText_spec text cs ov hov with ⟨starts, heq, -, -, -⟩
  rw [chunkTextD, heq]
  rfl

/-- On the guarded domain, `chunkText` emits at least one chunk. -/
theorem chunkTextD_length_pos (text : JStr) (cs ov : Nat) (hov : ov < cs) :
    0 < (chunkTextD text cs ov).length := by
  rcases chunkText_spec text cs ov hov with ⟨starts, heq, -, -, hne⟩
  have : chunkTextD text cs ov = starts.map
      (fun s => joinSpace (((splitWords text).drop s).take cs)) := by
    rw [chunkTextD, heq]; rfl
  rw [this, List.length_map]
  exact List.length_pos.mpr hne

/-- A position inside a window is an element of that window. -/
theorem mem_window_of_lt {α : Type} (L : List α) (s j cs : Nat)
    (hsj : s ≤ j) (hjc : j < s + cs) (hj : j < L.length) :
    L.get ⟨j, hj⟩ ∈ (L.drop s).take cs := by
  have h1 : j - s < ((L.drop s).take cs).length := by
    simp only [List.length_take, List.length_drop]
    omega
  have h2 : ((L.drop s).take cs)[j - s] = L.get ⟨j, hj⟩ := by
    rw [List.getElem_take, List.getElem_drop]
    simp only [List.get_eq_getElem]
    congr 1
    omega
  rw [← h2]
  exact List.getElem_mem h1

/-- On success, the embedding fan-out preserves the chunk texts in order,
assigns the ids `sid-i, sid-(i+1), ...`, and has the batch length. -/
theorem mkDocumentChunks_ok {ε : Type} (embed : EmbedFn ε) (sid : String) :
    ∀ (cs : List JStr) (i : Nat) (dcs : List DocumentChunk),
      mkDocumentChunks embed sid i cs = Except.ok dcs →
        dcs.map DocumentChunk.text = cs ∧
        dcs.map DocumentChunk.id =
          (List.range cs.length).map (fun k => mkChunkId sid (i + k)) ∧
        dcs.length = cs.length := by
  intro cs
  induction cs with
  | nil =>
    intro i dcs h
    simp only [mkDocumentChunks] at h
    cases h
    simp
  | cons c tl ih =>
    intro i dcs h
    simp only [mkDocumentChunks] at h
    cases hc : embed c with
    | error e => rw [hc] at h; cases h
    | ok emb =>
      rw [hc] at h
      cases htl : mkDocumentChunks embed sid (i + 1) tl with
      | error e => rw [htl] at h; cases h
      | ok rest =>
        rw [htl] at h
        cases h
        rcases ih (i + 1) rest htl with ⟨h1, h2, h3⟩
        refine ⟨by simp [h1], ?_, by simp [h3]⟩
        simp only [List.map_cons, List.length_cons, List.range_succ_eq_map,
          List.map_map, h2]
        simp only [List.cons.injEq]
        refine ⟨by rw [Nat.add_zero], ?_⟩
        apply List.map_congr_left
        intro k hk
        simp only [Function.comp_apply]
        congr 1
        omega

/-- If any chunk of the batch fails to embed, the whole fan-out rejects,
with an error produced by the embedding client on one of the chunks. -/
theorem mkDocumentChunks_error_of_mem {ε : Type} (embed : EmbedFn ε) (sid : String) :
    ∀ (cs : List JStr) (i : Nat) (c : JStr) (e : ε),
      c ∈ cs → embed c = Except.error e →
        ∃ e2, mkDocumentChunks embed sid i cs = Except.error e2 ∧
          ∃ c2 ∈ cs, embed c2 = Except.error e2 := by
  intro cs
  induction cs with
  | nil => intro i c e hc; simp at hc
  | cons c0 tl ih =>
    intro i c e hc he
    cases hc0 : embed c0 with
    | error e0 =>
      exact ⟨e0, by simp [mkDocumentChunks, hc0], c0, by simp, hc0⟩
    | ok emb =>
      have hct : c ∈ tl := by
        rcases List.mem_cons.mp hc with h | h
        · subst h; rw [hc0] at he; cases he
        · exact h
      rcases ih (i + 1) c e hct he with ⟨e2, h1, c2, hc2, h2⟩
      refine ⟨e2, ?_, c2, List.mem_cons_of_mem c0 hc2, h2⟩
      simp [mkDocumentChunks, hc0, h1]

/-- State change of a successful ingest: the promise value is the batch
size and the whole batch is appended to the session entry by the single
commit, all other sessions untouched. -/
theorem indexDocument_ok_state {ε : Type} (embed : EmbedFn ε) (sid : String)
    (text : JStr) (σ σ2 : Stores) (n : Nat)
    (h : indexDocument embed sid text σ = (σ2, Except.ok n)) :
    ∃ dcs, mkDocumentChunks embed sid 0 (chunkTextD text 500 100) = Except.ok dcs ∧
      n = dcs.length ∧
      σ2 sid = some ⟨storedChunks σ sid ++ dcs⟩ ∧
      ∀ k, k ≠ sid → σ2 k = σ k := by
  simp only [indexDocument] at h
  cases hm : mkDocumentChunks embed sid 0 (chunkTextD text 500 100) with
  | error e => rw [hm] at h; cases h
  | ok dcs =>
    rw [hm] at h
    cases h
    refine ⟨dcs, rfl, rfl, ?_, ?_⟩
    · cases hσ : σ sid with
      | some existing => simp [commitBatch, hσ, storesSet, storedChunks]
      | none => simp [commitBatch, hσ, storesSet, storedChunks]
    · intro k hk
      cases hσ : σ sid with
      | some existing => simp [commitBatch, hσ, storesSet, hk]
      | none => simp [commitBatch, hσ, storesSet, hk]

/-- C5: for every text whose whitespace tokenization yields at most
`chunkSize` words, `chunkText` returns exactly one chunk, equal to the
whitespace-normalized input (the words rejoined with single spaces). -/
theorem chunkText_small_input (text : JStr) (cs ov : Nat)
    (h : (splitWords text).length ≤ cs) :
    chunkText text cs ov = some [joinSpace (splitWords text)] := by
  simp [chunkText, h]

theorem chunkText_small_input_witness :
    (splitWords ("hello   world".data)).length ≤ 500 ∧
      chunkText ("hello   world".data) 500 100 =
        some [joinSpace (splitWords ("hello   world".data))] :=
  ⟨by decide, chunkText_small_input ("hello   world".data) 500 100 (by decide)⟩

/-- C4: for every text and every `overlap < chunkSize`, `chunkText`
terminates and returns the windows at a strictly increasing list of start
indices (document order), and every word of the input lies in the window
of at least one emitted chunk. -/
theorem chunkText_coverage_order (text : JStr) (cs ov : Nat) (hov : ov < cs) :
    ∃ starts : List Nat,
      chunkText text cs ov =
        some (starts.map (fun s => joinSpace (((splitWords text).drop s).take cs))) ∧
      starts.Pairwise (· < ·) ∧
      ∀ j (hj : j < (splitWords text).length), ∃ s ∈ starts,
        (splitWords text).get ⟨j, hj⟩ ∈ ((splitWords text).drop s).take cs := by
  rcases chunkText_spec text cs ov hov with ⟨starts, heq, hpw, hcov, -⟩
  refine ⟨starts, heq, hpw, ?_⟩
  intro j hj
  rcases hcov j hj with ⟨s, hs, h1, h2⟩
  exact ⟨s, hs, mem_window_of_lt (splitWords text) s j cs h1 h2 hj⟩

theorem chunkText_coverage_order_witness :
    1 < 2 ∧
      ∃ starts : List Nat,
        chunkText ("a b c d e".data) 2 1 =
          some (starts.map
            (fun s => joinSpace (((splitWords ("a b c d e".data)).drop s).take 2))) ∧
        starts.Pairwise (· < ·) ∧
        ∀ j (hj : j < (splitWords ("a b c d e".data)).length), ∃ s ∈ starts,
          (splitWords ("a b c d e".data)).get ⟨j, hj⟩ ∈
            ((splitWords ("a b c d e".data)).drop s).take 2 :=
  ⟨by decide, chunkText_coverage_order ("a b c d e".data) 2 1 (by decide)⟩

/-- C2 (the code, contrary to the spec, has no guard): at chunk size 2 and
overlap 2 on a three-word input, the stride of the loop is zero and the
loop never terminates, for any amount of fuel; `chunkText` diverges
(modelled as `none`) instead of rejecting the call with a validation
error. -/
theorem chunkText_diverges_on_overlap_eq_chunkSize :
    (∀ fuel chunks, chunkTextLoop (splitWords ("a b c".data)) 2 2 fuel 0 chunks = none) ∧
      chunkText ("a b c".data) 2 2 = none := by
  have hw : splitWords ("a b c".data) = [['a'], ['b'], ['c']] := by decide
  have hloop : ∀ fuel chunks,
      chunkTextLoop [['a'], ['b'], ['c']] 2 2 fuel 0 chunks = none := by
    intro fuel
    induction fuel with
    | zero => intro chunks; rfl
    | succ fuel ih =>
      intro chunks
      simp only [chunkTextLoop]
      norm_num
      exact ih _
  constructor
  · intro fuel chunks
    rw [hw]
    exact hloop fuel chunks
  · simp only [chunkText, hw]
    norm_num
    exact hloop 4 []

/-- C3: ingest is atomic.  If any per-chunk embedding call fails, the
whole ingest fails with an error propagated from the embedding client and
the store is returned exactly as it was (the rejection of the fan-out
happens before any store mutation); on success the full batch is
committed by the single append of `commitBatch` and all other sessions
are untouched. -/
theorem indexDocument_atomic {ε : Type} (embed : EmbedFn ε) (sid : String)
    (text : JStr) (σ σ2 : Stores) (r : Except ε Nat)
    (h : indexDocument embed sid text σ = (σ2, r)) :
    ((∃ c ∈ chunkTextD text 500 100, ∃ e, embed c = Except.error e) →
      σ2 = σ ∧ ∃ e2, r = Except.error e2 ∧
        ∃ c2 ∈ chunkTextD text 500 100, embed c2 = Except.error e2) ∧
    (∀ n, r = Except.ok n →
      ∃ dcs, mkDocumentChunks embed sid 0 (chunkTextD text 500 100) = Except.ok dcs ∧
        n = dcs.length ∧
        σ2 sid = some ⟨storedChunks σ sid ++ dcs⟩ ∧
        ∀ k, k ≠ sid → σ2 k = σ k) := by
  constructor
  · rintro ⟨c, hc, e, he⟩
    rcases mkDocumentChunks_error_of_mem embed sid (chunkTextD text 500 100) 0 c e hc he
      with ⟨e2, hm, c2, hc2, he2⟩
    simp only [indexDocument, hm] at h
    cases h
    exact ⟨rfl, e2, rfl, c2, hc2, he2⟩
  · rintro n rfl
    exact indexDocument_ok_state embed sid text σ σ2 n h

theorem indexDocument_atomic_witness :
    (indexDocument (fun _ => (Except.error 7 : Except Nat (List ℚ)))
        "s" "hi".data emptyStores).1 = emptyStores :=
  ((indexDocument_atomic (fun _ => (Except.error 7 : Except Nat (List ℚ)))
      "s" "hi".data emptyStores _ _ rfl).1
    ⟨['h', 'i'], by decide, 7, rfl⟩).1

/-- C9: two ingests into the same session, in either serialization of
their commits, each append their full batch: the final chunk count is the
initial count plus both batch sizes (no lost update).  In the source the
only suspension points of an ingest are the embedding awaits, which do
not touch the store; the read-modify-write commit (lines 110-116) runs
synchronously in one event-loop turn, so any concurrent execution of two
ingests is observationally one of the two sequential commit orders; the
statement covers both orders since the two batches are arbitrary. -/
theorem concurrent_ingest_no_lost_update {ε1 ε2 : Type}
    (e1 : EmbedFn ε1) (e2 : EmbedFn ε2) (sid : String) (t1 t2 : JStr)
    (σ σ1 σ2 : Stores) (n1 n2 : Nat)
    (h1 : indexDocument e1 sid t1 σ = (σ1, Except.ok n1))
    (h2 : indexDocument e2 sid t2 σ1 = (σ2, Except.ok n2)) :
    chunkCount σ2 sid = chunkCount σ sid + n1 + n2 := by
  rcases indexDocument_ok_state e1 sid t1 σ σ1 n1 h1 with ⟨d1, -, hn1, hs1, -⟩
  rcases indexDocument_ok_state e2 sid t2 σ1 σ2 n2 h2 with ⟨d2, -, hn2, hs2, -⟩
  have hstored1 : storedChunks σ1 sid = storedChunks σ sid ++ d1 := by
    simp [storedChunks, hs1]
  have hstored2 : storedChunks σ2 sid = storedChunks σ1 sid ++ d2 := by
    simp [storedChunks, hs2]
  simp [chunkCount, hstored2, hstored1, hn1, hn2]
  omega

theorem concurrent_ingest_no_lost_update_witness :
    chunkCount
      (indexDocument (fun _ => (Except.ok [1] : Except Unit (List ℚ))) "s" "b".data
        (indexDocument (fun _ => (Except.ok [1] : Except Unit (List ℚ))) "s" "a".data
          emptyStores).1).1 ("s") =
      chunkCount emptyStores ("s") + 1 + 1 :=
  concurrent_ingest_no_lost_update
    (fun _ => (Except.ok [1] : Except Unit (List ℚ)))
    (fun _ => (Except.ok [1] : Except Unit (List ℚ)))
    "s" "a".data ("b".data) emptyStores _ _ 1 1 rfl rfl

/-- C10: a text whose whitespace tokenization is empty chunks to the
one-element list holding the empty string (not to the empty list), and a
successful `indexDocument` always reports at least one chunk indexed. -/
theorem chunkText_empty_input_and_min_one_chunk :
    (∀ (text : JStr) (cs ov : Nat), splitWords text = [] →
      chunkText text cs ov = some [[]]) ∧
    ∀ (ε : Type) (embed : EmbedFn ε) (sid : String) (text : JStr)
      (σ σ2 : Stores) (n : Nat),
      indexDocument embed sid text σ = (σ2, Except.ok n) → 1 ≤ n := by
  constructor
  · intro text cs ov h
    simp [chunkText, h, joinSpace]
  · intro ε embed sid text σ σ2 n h
    rcases indexDocument_ok_state embed sid text σ σ2 n h with ⟨dcs, hm, hn, -, -⟩
    rcases mkDocumentChunks_ok embed sid (chunkTextD text 500 100) 0 dcs hm
      with ⟨-, -, hlen⟩
    have := chunkTextD_length_pos text 500 100 (by omega)
    omega

theorem chunkText_empty_input_and_min_one_chunk_witness :
    chunkText ("   ".data) 5 2 = some [[]] ∧
      (1 : Nat) ≤ 1 ∧
      (indexDocument (fun _ => (Except.ok [1] : Except Unit (List ℚ)))
          "s" "   ".data emptyStores).2 = Except.ok 1 :=
  ⟨chunkText_empty_input_and_min_one_chunk.1 ("   ".data) 5 2 (by decide),
    chunkText_empty_input_and_min_one_chunk.2 Unit
      (fun _ => (Except.ok [1] : Except Unit (List ℚ)))
      "s" "   ".data emptyStores _ 1 rfl,
    rfl⟩

/-- C7: retrieval against a session with no entry, or an entry holding no
chunks, returns the empty sequence without error, for every embedding
client (in the source the early return happens before the query is
embedded, so the embedding client is never invoked). -/
theorem retrieveContext_empty_session {ε : Type} (sid : String) (σ : Stores)
    (h : σ sid = none ∨ σ sid = some ⟨[]⟩) :
    ∀ (sqrt : ℚ → ℚ) (embed : EmbedFn ε) (query : JStr) (topK : Nat),
      retrieveContext sqrt embed sid query topK σ = Except.ok [] := by
  intro sqrt embed query topK
  rcases h with h | h <;> simp [retrieveContext, h]

theorem retrieveContext_empty_session_witness :
    retrieveContext id (fun _ => (Except.error 3 : Except Nat (List ℚ)))
      "nosuch" "q".data 3 emptyStores = Except.ok [] :=
  retrieveContext_empty_session ("nosuch") emptyStores (Or.inl rfl) id
    (fun _ => (Except.error 3 : Except Nat (List ℚ))) "q".data 3

/-- Unfolding equation of `digitsList`. -/
theorem digitsList_eq (n : Nat) :
    digitsList n = if n < 10 then [Nat.digitChar n]
      else digitsList (n / 10) ++ [Nat.digitChar (n % 10)] := by
  rw [digitsList]

/-- The digit list of a natural number is never empty. -/
theorem digitsList_ne_nil (n : Nat) : digitsList n ≠ [] := by
  rw [digitsList]
  by_cases h : n < 10 <;> simp [h]

/-- Injectivity of `Nat.digitChar` on decimal digits. -/
theorem digitChar_inj_lt : ∀ m, m < 10 → ∀ n, n < 10 →
    Nat.digitChar m = Nat.digitChar n → m = n := by decide

/-- The digit-list representation is injective. -/
theorem digitsList_inj : ∀ m, ∀ n, digitsList m = digitsList n → m = n := by
  intro m
  induction m using Nat.strong_induction_on with
  | _ m ih =>
    intro n h
    by_cases hm : m < 10 <;> by_cases hn : n < 10
    · rw [digitsList_eq m, if_pos hm, digitsList_eq n, if_pos hn] at h
      exact digitChar_inj_lt m hm n hn (List.cons.injEq .. ▸ h |>.1)
    · exfalso
      rw [digitsList_eq m, if_pos hm, digitsList_eq n, if_neg hn] at h
      have hlen := congrArg List.length h
      simp only [List.length_cons, List.length_nil, List.length_append] at hlen
      have hz : (digitsList (n / 10)).length = 0 := by omega
      exact digitsList_ne_nil (n / 10) (List.length_eq_zero.mp hz)
    · exfalso
      rw [digitsList_eq m, if_neg hm, digitsList_eq n, if_pos hn] at h
      have hlen := congrArg List.length h
      simp only [List.length_cons, List.length_nil, List.length_append] at hlen
      have hz : (digitsList (m / 10)).length = 0 := by omega
      exact digitsList_ne_nil (m / 10) (List.length_eq_zero.mp hz)
    · rw [digitsList_eq m, if_neg hm, digitsList_eq n, if_neg hn] at h
      rcases List.append_inj' h (by simp) with ⟨h1, h2⟩
      have hdiv : m / 10 = n / 10 :=
        ih (m / 10) (Nat.div_lt_self (by omega) (by omega)) (n / 10) h1
      have hmod : m % 10 = n % 10 :=
        digitChar_inj_lt (m % 10) (Nat.mod_lt m (by omega)) (n % 10)
          (Nat.mod_lt n (by omega)) (by simpa using h2)
      omega

/-- The fueled core of `Nat.repr` computes the digit list (given
sufficient fuel, which `Nat.repr` always supplies). -/
theorem toDigitsCore_eq_digitsList :
    ∀ fuel n ds, n < fuel →
      Nat.toDigitsCore 10 fuel n ds = digitsList n ++ ds := by
  intro fuel
  induction fuel with
  | zero => intro n ds h; omega
  | succ fuel ih =>
    intro n ds h
    by_cases hd : n / 10 = 0
    · have hn : n < 10 := by omega
      simp only [Nat.toDigitsCore, if_pos hd]
      rw [digitsList_eq n, if_pos hn, Nat.mod_eq_of_lt hn]
      simp
    · have hn : ¬ n < 10 := by omega
      have hlt : n / 10 < fuel := by omega
      simp only [Nat.toDigitsCore, if_neg hd]
      rw [ih (n / 10) (Nat.digitChar (n % 10) :: ds) hlt]
      rw [digitsList_eq n, if_neg hn]
      simp

/-- Injectivity of `Nat.repr`. -/
theorem nat_repr_inj : ∀ m n : Nat, Nat.repr m = Nat.repr n → m = n := by
  intro m n h
  have hm : Nat.toDigits 10 m = digitsList m := by
    rw [Nat.toDigits, toDigitsCore_eq_digitsList (m + 1) m [] (by omega)]
    simp
  have hn : Nat.toDigits 10 n = digitsList n := by
    rw [Nat.toDigits, toDigitsCore_eq_digitsList (n + 1) n [] (by omega)]
    simp
  have : digitsList m = digitsList n := by
    have hd := congrArg String.data h
    simpa [Nat.repr, hm, hn, List.asString] using hd
  exact digitsList_inj m n this

/-- For a fixed session id, distinct indices give distinct chunk ids. -/
theorem mkChunkId_inj (sid : String) (i j : Nat)
    (h : mkChunkId sid i = mkChunkId sid j) : i = j := by
  apply nat_repr_inj
  have hd := congrArg String.data h
  simp only [mkChunkId, String.data_append] at hd
  have h2 := List.append_cancel_left hd
  exact String.ext h2

/-- C1 is false of the code: chunk ids restart at `sid-0` on every
ingest, so two successive ingests into the same session store two chunks
with the identical id `s-0` (and after a `clear` the same ids are handed
out again, since nothing else feeds the counter). -/
theorem chunkId_duplicate_across_ingests :
    ((storedChunks
        (indexDocument (fun _ => (Except.ok [1] : Except Unit (List ℚ))) "s" "hi".data
          (indexDocument (fun _ => (Except.ok [1] : Except Unit (List ℚ))) "s" "hi".data
            emptyStores).1).1 ("s")).map DocumentChunk.id = ["s-0", "s-0"]) ∧
    ¬ ((storedChunks
        (indexDocument (fun _ => (Except.ok [1] : Except Unit (List ℚ))) "s" "hi".data
          (indexDocument (fun _ => (Except.ok [1] : Except Unit (List ℚ))) "s" "hi".data
            emptyStores).1).1 ("s")).map DocumentChunk.id).Nodup := by
  constructor
  · rfl
  · decide

/-- C1 (amended): chunk ids are unique within a single ingested batch
(the batch committed by one successful `indexDocument` call); uniqueness
does not extend across batches of the same session, and ids are reused
after a clear (see the counterexample of record). -/
theorem chunkIds_nodup_within_batch {ε : Type} (embed : EmbedFn ε) (sid : String)
    (text : JStr) (σ σ2 : Stores) (n : Nat)
    (h : indexDocument embed sid text σ = (σ2, Except.ok n)) :
    ∃ dcs, σ2 sid = some ⟨storedChunks σ sid ++ dcs⟩ ∧
      (dcs.map DocumentChunk.id).Nodup := by
  rcases indexDocument_ok_state embed sid text σ σ2 n h with ⟨dcs, hm, -, hs, -⟩
  refine ⟨dcs, hs, ?_⟩
  rcases mkDocumentChunks_ok embed sid (chunkTextD text 500 100) 0 dcs hm
    with ⟨-, hid, -⟩
  rw [hid]
  refine List.Nodup.map_on ?_ (List.nodup_range _)
  intro x hx y hy hxy
  have := mkChunkId_inj sid (0 + x) (0 + y) hxy
  omega

theorem chunkIds_nodup_within_batch_witness :
    ∃ dcs,
      (indexDocument (fun _ => (Except.ok [1] : Except Unit (List ℚ)))
          "s" "hi there".data emptyStores).1 ("s") =
        some ⟨storedChunks emptyStores ("s") ++ dcs⟩ ∧
      (dcs.map DocumentChunk.id).Nodup :=
  chunkIds_nodup_within_batch (fun _ => (Except.ok [1] : Except Unit (List ℚ)))
    "s" "hi there".data emptyStores _ 1 rfl

/-- A fold of squares over an all-zero vector keeps its seed. -/
theorem foldl_sq_of_zero : ∀ (v : List ℚ) (s : ℚ), (∀ x ∈ v, x = 0) →
    v.foldl (fun a x => a + x * x) s = s := by
  intro v
  induction v with
  | nil => intro s h; rfl
  | cons x tl ih =>
    intro s h
    have hx : x = 0 := h x (by simp)
    simp only [List.foldl_cons, hx, mul_zero, add_zero]
    exact ih s (fun y hy => h y (by simp [hy]))

/-- The sum of squares of the zero vector is zero. -/
theorem sumSquares_eq_zero_of_zero (v : List ℚ) (h : ∀ x ∈ v, x = 0) :
    sumSquares v = 0 :=
  foldl_sq_of_zero v 0 h

/-- C8: when either argument is the zero vector, or more generally when
the product of the squared norms is zero, `cosineSimilarity` takes the
guard branch and returns exactly `0` (in this `ℚ` model no NaN exists to
propagate, and the conjunct below shows the division expression is the
value only when the denominator is nonzero).  The only assumption on the
abstract square root is `sqrt 0 = 0`, true of `Math.sqrt`. -/
theorem cosineSimilarity_zero_norm (sqrt : ℚ → ℚ) (hsqrt : sqrt 0 = 0)
    (a b : List ℚ) :
    (((∀ x ∈ a, x = 0) ∨ (∀ x ∈ b, x = 0) ∨ sumSquares a * sumSquares b = 0) →
      cosineSimilarity sqrt a b = 0) ∧
    (sqrt (sumSquares a) * sqrt (sumSquares b) ≠ 0 →
      cosineSimilarity sqrt a b =
        dotProduct a b / (sqrt (sumSquares a) * sqrt (sumSquares b))) := by
  constructor
  · intro h
    have hden : sqrt (sumSquares a) * sqrt (sumSquares b) = 0 := by
      rcases h with h | h | h
      · rw [sumSquares_eq_zero_of_zero a h, hsqrt, zero_mul]
      · rw [sumSquares_eq_zero_of_zero b h, hsqrt, mul_zero]
      · rcases mul_eq_zero.mp h with h | h
        · rw [h, hsqrt, zero_mul]
        · rw [h, hsqrt, mul_zero]
    simp [cosineSimilarity, hden]
  · intro hden
    simp only [cosineSimilarity]
    rw [if_neg hden]

theorem cosineSimilarity_zero_norm_witness :
    cosineSimilarity id [(0 : ℚ), 0] [3, 4] = 0 :=
  (cosineSimilarity_zero_norm id rfl [(0 : ℚ), 0] [3, 4]).1 (Or.inl (by decide))

/-- The comparator of the retrieval sort is transitive. -/
theorem scoreLe_trans : ∀ a b c : JStr × ℚ,
    scoreLe a b = true → scoreLe b c = true → scoreLe a c = true := by
  intro a b c hab hbc
  simp only [scoreLe, decide_eq_true_eq] at *
  exact le_trans hbc hab

/-- The comparator of the retrieval sort is total. -/
theorem scoreLe_total : ∀ a b : JStr × ℚ, (scoreLe a b || scoreLe b a) = true := by
  intro a b
  simp only [scoreLe, Bool.or_eq_true, decide_eq_true_eq]
  exact le_total b.2 a.2

/-- C6: on a session holding `n` chunks, with the query embedding
available, retrieval returns exactly `min topK n` items: the texts (and
only the texts) of the first `topK` entries of a ranking `ranked` that is
a permutation of the scored chunks, has non-increasing scores, and is
stable — every descending-score sublist of the scored sequence, in
particular any pair of equal-score chunks in insertion order, appears as
a sublist of `ranked` in that original order. -/
theorem retrieveContext_topk_sorted_stable {ε : Type} (sqrt : ℚ → ℚ)
    (embed : EmbedFn ε) (sid : String) (query : JStr) (topK : Nat)
    (σ : Stores) (st : VectorStore) (qe : List ℚ)
    (hσ : σ sid = some st) (hq : embed query = Except.ok qe) :
    ∃ (out : List JStr) (ranked : List (JStr × ℚ)),
      retrieveContext sqrt embed sid query topK σ = Except.ok out ∧
      out.length = min topK st.chunks.length ∧
      out = (ranked.take topK).map Prod.fst ∧
      ranked.Perm (st.chunks.map fun c => (c.text, cosineSimilarity sqrt qe c.embedding)) ∧
      ranked.Pairwise (fun x y => y.2 ≤ x.2) ∧
      ∀ (l : List (JStr × ℚ)),
        l.Sublist (st.chunks.map fun c => (c.text, cosineSimilarity sqrt qe c.embedding)) →
        l.Pairwise (fun x y => y.2 ≤ x.2) → l.Sublist ranked := by
  by_cases hlen : st.chunks.length = 0
  · have hnil : st.chunks = [] := List.length_eq_zero.mp hlen
    refine ⟨[], [], ?_, by simp [hlen], by simp, by simp [hnil], by simp, ?_⟩
    · simp [retrieveContext, hσ, hlen]
    · intro l hl hp
      simp only [hnil, List.map_nil, List.sublist_nil] at hl
      simp [hl]
  · refine ⟨(((st.chunks.map fun c =>
        (c.text, cosineSimilarity sqrt qe c.embedding)).mergeSort scoreLe).take topK).map
          Prod.fst,
      (st.chunks.map fun c =>
        (c.text, cosineSimilarity sqrt qe c.embedding)).mergeSort scoreLe,
      ?_, ?_, rfl, List.mergeSort_perm _ scoreLe, ?_, ?_⟩
    · simp [retrieveContext, hσ, hlen, hq]
    · rw [List.length_map, List.length_take,
        (List.mergeSort_perm _ scoreLe).length_eq, List.length_map]
    · have hs := List.sorted_mergeSort scoreLe_trans scoreLe_total
        (st.chunks.map fun c => (c.text, cosineSimilarity sqrt qe c.embedding))
      refine hs.imp ?_
      intro x y hxy
      simpa [scoreLe] using hxy
    · intro l hsub hp
      refine List.sublist_mergeSort scoreLe_trans scoreLe_total ?_ hsub
      refine hp.imp ?_
      intro x y hxy
      simpa [scoreLe] using hxy

theorem retrieveContext_topk_sorted_stable_witness :
    ∃ (out : List JStr) (ranked : List (JStr × ℚ)),
      retrieveContext id (fun _ => (Except.ok [2] : Except Unit (List ℚ)))
        "s" "q".data 3
        (storesSet emptyStores ("s")
          ⟨[⟨"s-0", "a".data, [1]⟩, ⟨"s-1", "b".data, [2]⟩,
            ⟨"s-2", "c".data, [1]⟩, ⟨"s-3", "d".data, [3]⟩,
            ⟨"s-4", "e".data, [1]⟩]⟩) = Except.ok out ∧
      out.length = min 3 ([⟨"s-0", "a".data, [1]⟩, ⟨"s-1", "b".data, [2]⟩,
            ⟨"s-2", "c".data, [1]⟩, ⟨"s-3", "d".data, [3]⟩,
            (⟨"s-4", "e".data, [1]⟩ : DocumentChunk)] : List DocumentChunk).length ∧
      out = (ranked.take 3).map Prod.fst ∧
      ranked.Perm (([⟨"s-0", "a".data, [1]⟩, ⟨"s-1", "b".data, [2]⟩,
            ⟨"s-2", "c".data, [1]⟩, ⟨"s-3", "d".data, [3]⟩,
            (⟨"s-4", "e".data, [1]⟩ : DocumentChunk)] : List DocumentChunk).map
        fun c => (c.text, cosineSimilarity id [2] c.embedding)) ∧
      ranked.Pairwise (fun x y => y.2 ≤ x.2) ∧
      ∀ (l : List (JStr × ℚ)),
        l.Sublist (([⟨"s-0", "a".data, [1]⟩, ⟨"s-1", "b".data, [2]⟩,
            ⟨"s-2", "c".data, [1]⟩, ⟨"s-3", "d".data, [3]⟩,
            (⟨"s-4", "e".data, [1]⟩ : DocumentChunk)] : List DocumentChunk).map
          fun c => (c.text, cosineSimilarity id [2] c.embedding)) →
        l.Pairwise (fun x y => y.2 ≤ x.2) → l.Sublist ranked :=
  retrieveContext_topk_sorted_stable id
    (fun _ => (Except.ok [2] : Except Unit (List ℚ))) "s" "q".data 3
    (storesSet emptyStores ("s")
      ⟨[⟨"s-0", "a".data, [1]⟩, ⟨"s-1", "b".data, [2]⟩,
        ⟨"s-2", "c".data, [1]⟩, ⟨"s-3", "d".data, [3]⟩,
        ⟨"s-4", "e".data, [1]⟩]⟩)
    ⟨[⟨"s-0", "a".data, [1]⟩, ⟨"s-1", "b".data, [2]⟩,
      ⟨"s-2", "c".data, [1]⟩, ⟨"s-3", "d".data, [3]⟩,
      ⟨"s-4", "e".data, [1]⟩]⟩ [2] rfl rfl

end Rag

